import Mathlib

/-!
# Verification of the quad-edge core (`quadedge-rs`)

A shallow embedding of `src/lib.rs` of the `quadedge-rs` repository.

The Rust code represents a quad-edge manifold as an arena of `QuadEdge`
records (four next-pointer cells plus four payload cells each), with
`Node` handles `(record, u8 index)`.  A manifold keeps its records in
insertion order (`qrefs`), which we use as the identity of a record:
a `Node` here stores the record's insertion ordinal.  Payload cells hold
optional references into the manifold's payload arenas; the reference
itself is abstracted as an opaque `Nat` identifier (no operation of the
source ever reads or writes these cells, so nothing depends on the
abstraction).

All index arithmetic in the source is `u8` arithmetic followed by
`rem_euclid(4)`.  Since `4 ∣ 256`, `(i + 1) mod 256 mod 4 = (i + 1) mod 4`,
so modelling the index as a `Nat` and reducing modulo 4 exactly matches
the wrap-around `u8` semantics for every representable index.
-/

namespace QuadedgeRs

/-- A `Node<'m, V, F>` handle: the ordinal of a `QuadEdge` record in its
manifold plus the `u8` position index. -/
structure Node where
  q : Nat
  i : Nat
deriving DecidableEq, Repr

/-- `Node::rot`: `(i + 1).rem_euclid(4)` on the index (`u8` wrap-around
agrees with plain `Nat` arithmetic because `4 ∣ 256`). -/
def Node.rot (n : Node) : Node := ⟨n.q, (n.i + 1) % 4⟩

/-- A `QuadEdge<'m, V, F>` record: the four next-pointer cells
(`next: [Cell<Option<Node>>; 4]`) and the four payload cells
(`data: (VertCell, FaceCell, VertCell, FaceCell)`), the latter holding
opaque optional references. -/
structure QuadRecord where
  n0 : Option Node
  n1 : Option Node
  n2 : Option Node
  n3 : Option Node
  vf0 : Option Nat
  vf1 : Option Nat
  vf2 : Option Nat
  vf3 : Option Nat
deriving DecidableEq, Repr

/-- `QuadEdge::default()`: every cell `None`. -/
def defaultRecord : QuadRecord := ⟨none, none, none, none, none, none, none, none⟩

/-- `QuadEdge::next(i)` reads cell `i.rem_euclid(4)` (before the
`expect("Node not initialized")`). -/
def QuadRecord.nextSlot (r : QuadRecord) (i : Nat) : Option Node :=
  match i % 4 with
  | 0 => r.n0
  | 1 => r.n1
  | 2 => r.n2
  | _ => r.n3

/-- `QuadEdge::set(i, node)` stores `Some node` in cell `i.rem_euclid(4)`. -/
def QuadRecord.setSlot (r : QuadRecord) (i : Nat) (v : Node) : QuadRecord :=
  match i % 4 with
  | 0 => { r with n0 := some v }
  | 1 => { r with n1 := some v }
  | 2 => { r with n2 := some v }
  | _ => { r with n3 := some v }

/-- `QuadEdge::ind(i)`: the node at position `i.rem_euclid(4)`. -/
def ind (q : Nat) (i : Nat) : Node := ⟨q, i % 4⟩

/-- `QuadEdge::orig`: the source returns `self.ind(2)`. -/
def orig (q : Nat) : Node := ind q 2

/-- `QuadEdge::dest`: the source returns `self.ind(2)` as well. -/
def dest (q : Nat) : Node := ind q 2

/-- A manifold state: the records in insertion (`qrefs`) order. -/
abbrev Mstate := List QuadRecord

/-- Reading the next-pointer of node `n` (`Node::next`); `none` models the
`expect("Node not initialized")` panic or a dangling record. -/
def readN (s : Mstate) (n : Node) : Option Node :=
  s[n.q]?.bind fun r => r.nextSlot n.i

/-- Writing the next-pointer of node `n` (`Node::set`). -/
def writeN (s : Mstate) (n : Node) (v : Node) : Mstate :=
  match s[n.q]? with
  | some r => s.set n.q (r.setSlot n.i v)
  | none => s

/-- Two node handles address the same next-pointer cell. -/
def sameSlot (n m : Node) : Prop := n.q = m.q ∧ n.i % 4 = m.i % 4

instance (n m : Node) : Decidable (sameSlot n m) := by
  unfold sameSlot; infer_instance

/-- `Node::swap`: read both next-pointers, then store them crosswise.
`none` when either read hits an uninitialized cell (a panic in Rust). -/
def swapN (s : Mstate) (a b : Node) : Option Mstate := do
  let ta ← readN s a
  let tb ← readN s b
  pure (writeN (writeN s a tb) b ta)

/-- `Node::splice`: `self.swap(other); self.next().rot().swap(other.next().rot())`,
with the dual pair computed after the first swap, exactly as in the source. -/
def splice? (s : Mstate) (a b : Node) : Option Mstate := do
  let s1 ← swapN s a b
  let na ← readN s1 a
  let nb ← readN s1 b
  swapN s1 na.rot nb.rot

/-- Splice applied twice with the same arguments. -/
def spliceTwice (s : Mstate) (a b : Node) : Option Mstate :=
  (splice? s a b).bind fun t => splice? t a b

/-- The canonical Guibas–Stolfi splice as the specification words it:
`α = Rot(Onext(a))` and `β = Rot(Onext(b))` are computed in the state
before any exchange; then the next-pointers at `a, b` are exchanged and
afterwards those at `α, β` are. -/
def spliceSpecCanonical (s : Mstate) (a b : Node) : Option Mstate := do
  let na ← readN s a
  let nb ← readN s b
  let s1 ← swapN s a b
  swapN s1 na.rot nb.rot

/-- `QuadEdge::set_all`: set cells 0, 1, 2, 3 in order. -/
def setAll (s : Mstate) (q : Nat) (v0 v1 v2 v3 : Node) : Mstate :=
  writeN (writeN (writeN (writeN s ⟨q, 0⟩ v0) ⟨q, 1⟩ v1) ⟨q, 2⟩ v2) ⟨q, 3⟩ v3

/-- `Manifold::make_quad`: allocate a default record, push it onto `qrefs`
(its ordinal is the previous length), then
`set_all [Node(q,0), Node(q,3), Node(q,2), Node(q,1)]`. -/
def make_quad (s : Mstate) : Mstate :=
  let q := s.length
  setAll (s ++ [defaultRecord]) q ⟨q, 0⟩ ⟨q, 3⟩ ⟨q, 2⟩ ⟨q, 1⟩

/-- The payload cells of record `q`. -/
def dataOf (s : Mstate) (q : Nat) :
    Option (Option Nat × Option Nat × Option Nat × Option Nat) :=
  (s[q]?).map fun r => (r.vf0, r.vf1, r.vf2, r.vf3)

/-! ## Basic read/write laws -/

theorem nextSlot_congr (r : QuadRecord) {i j : Nat} (h : i % 4 = j % 4) :
    r.nextSlot i = r.nextSlot j := by
  unfold QuadRecord.nextSlot
  rw [h]

theorem setSlot_congr (r : QuadRecord) {i j : Nat} (h : i % 4 = j % 4) (v : Node) :
    r.setSlot i v = r.setSlot j v := by
  unfold QuadRecord.setSlot
  rw [h]

theorem readN_congr {n m : Node} (s : Mstate) (h : sameSlot n m) :
    readN s n = readN s m := by
  obtain ⟨hq, hi⟩ := h
  unfold readN
  rw [hq]
  cases s[m.q]? with
  | none => rfl
  | some r => simp [nextSlot_congr r hi]

theorem writeN_oob {s : Mstate} {n : Node} (h : s.length ≤ n.q) (v : Node) :
    writeN s n v = s := by
  unfold writeN
  rw [List.getElem?_eq_none h]

theorem length_writeN (s : Mstate) (n : Node) (v : Node) :
    (writeN s n v).length = s.length := by
  unfold writeN
  cases h : s[n.q]? with
  | none => rfl
  | some r => simp [List.length_set]

theorem setSlot_vf (r : QuadRecord) (i : Nat) (v : Node) :
    ((r.setSlot i v).vf0, (r.setSlot i v).vf1, (r.setSlot i v).vf2,
      (r.setSlot i v).vf3) = (r.vf0, r.vf1, r.vf2, r.vf3) := by
  unfold QuadRecord.setSlot
  have hi4 : i % 4 = 0 ∨ i % 4 = 1 ∨ i % 4 = 2 ∨ i % 4 = 3 := by omega
  rcases hi4 with hi | hi | hi | hi <;> simp [hi]

theorem dataOf_writeN (s : Mstate) (n : Node) (v : Node) (q : Nat) :
    dataOf (writeN s n v) q = dataOf s q := by
  unfold writeN dataOf
  cases h : s[n.q]? with
  | none => rfl
  | some r =>
    by_cases hq : q = n.q
    · have hlt : n.q < s.length := (List.getElem?_eq_some_iff.1 h).1
      rw [hq, List.getElem?_set_self hlt, h]
      simp [setSlot_vf]
    · rw [List.getElem?_set_ne (fun h' => hq h'.symm)]

theorem nextSlot_setSlot_same (r : QuadRecord) {i j : Nat} (h : i % 4 = j % 4)
    (v : Node) : (r.setSlot i v).nextSlot j = some v := by
  unfold QuadRecord.setSlot QuadRecord.nextSlot
  have hi4 : i % 4 = 0 ∨ i % 4 = 1 ∨ i % 4 = 2 ∨ i % 4 = 3 := by omega
  rcases hi4 with hi | hi | hi | hi <;> rw [hi] at h <;> simp [hi, ← h]

theorem nextSlot_setSlot_other (r : QuadRecord) {i j : Nat} (h : ¬ i % 4 = j % 4)
    (v : Node) : (r.setSlot i v).nextSlot j = r.nextSlot j := by
  unfold QuadRecord.setSlot QuadRecord.nextSlot
  have hi4 : i % 4 = 0 ∨ i % 4 = 1 ∨ i % 4 = 2 ∨ i % 4 = 3 := by omega
  have hj4 : j % 4 = 0 ∨ j % 4 = 1 ∨ j % 4 = 2 ∨ j % 4 = 3 := by omega
  rcases hi4 with hi | hi | hi | hi <;> rcases hj4 with hj | hj | hj | hj <;>
    rw [hi, hj] at h ⊢ <;> simp_all

/-- Master read-after-write law. -/
theorem readN_writeN (s : Mstate) (x v n : Node) :
    readN (writeN s x v) n =
      if sameSlot x n ∧ x.q < s.length then some v else readN s n := by
  unfold writeN
  cases hg : s[x.q]? with
  | none =>
    have hlen : s.length ≤ x.q := List.getElem?_eq_none_iff.1 hg
    have : ¬ (sameSlot x n ∧ x.q < s.length) := by rintro ⟨_, h⟩; omega
    simp [this]
  | some r =>
    have hlt : x.q < s.length := (List.getElem?_eq_some_iff.1 hg).1
    unfold readN
    by_cases hq : n.q = x.q
    · rw [hq, List.getElem?_set_self hlt]
      by_cases hi : x.i % 4 = n.i % 4
      · have hss : sameSlot x n ∧ x.q < s.length := ⟨⟨hq.symm, hi⟩, hlt⟩
        rw [if_pos hss]
        simpa using nextSlot_setSlot_same r hi v
      · have hss : ¬ (sameSlot x n ∧ x.q < s.length) := by
          rintro ⟨⟨_, h⟩, _⟩; exact hi h
        rw [if_neg hss, hg]
        simpa using nextSlot_setSlot_other r hi v
    · have hss : ¬ (sameSlot x n ∧ x.q < s.length) := by
        rintro ⟨⟨h, _⟩, _⟩; exact hq h.symm
      rw [List.getElem?_set_ne (fun h => hq h.symm)]
      simp [hss]

theorem sameSlot_refl (n : Node) : sameSlot n n := ⟨rfl, rfl⟩

theorem sameSlot_symm {n m : Node} (h : sameSlot n m) : sameSlot m n :=
  ⟨h.1.symm, h.2.symm⟩

theorem sameSlot_trans {n m k : Node} (h : sameSlot n m) (h' : sameSlot m k) :
    sameSlot n k := ⟨h.1.trans h'.1, h.2.trans h'.2⟩

theorem sameSlot_congr {a b : Node} (h : sameSlot a b) (n : Node) :
    sameSlot a n ↔ sameSlot b n :=
  ⟨fun h' => sameSlot_trans (sameSlot_symm h) h', fun h' => sameSlot_trans h h'⟩

theorem readN_oob {s : Mstate} {n : Node} (h : s.length ≤ n.q) : readN s n = none := by
  unfold readN
  rw [List.getElem?_eq_none h]
  rfl

theorem readN_lt {s : Mstate} {n v : Node} (h : readN s n = some v) :
    n.q < s.length := by
  by_contra hle
  rw [readN_oob (by omega)] at h
  exact Option.noConfusion h

/-- Two manifold states with equal record counts, equal next-pointer reads
and equal payload cells are equal. -/
theorem stateExt {s t : Mstate} (hlen : s.length = t.length)
    (hread : ∀ n, readN s n = readN t n) (hdata : ∀ q, dataOf s q = dataOf t q) :
    s = t := by
  apply List.ext_getElem?
  intro q
  cases hs : s[q]? with
  | none =>
    have : t.length ≤ q := by
      have := List.getElem?_eq_none_iff.1 hs; omega
    rw [List.getElem?_eq_none this]
  | some r =>
    have hq : q < t.length := by
      have := (List.getElem?_eq_some_iff.1 hs).1; omega
    obtain ⟨r', hr'⟩ : ∃ r', t[q]? = some r' := by
      cases ht : t[q]? with
      | none => exact absurd (List.getElem?_eq_none_iff.1 ht) (by omega)
      | some r' => exact ⟨r', rfl⟩
    rw [hr']
    congr 1
    have h0 := hread ⟨q, 0⟩
    have h1 := hread ⟨q, 1⟩
    have h2 := hread ⟨q, 2⟩
    have h3 := hread ⟨q, 3⟩
    unfold readN at h0 h1 h2 h3
    rw [hs, hr'] at h0 h1 h2 h3
    simp [QuadRecord.nextSlot] at h0 h1 h2 h3
    have hd := hdata q
    unfold dataOf at hd
    rw [hs, hr'] at hd
    simp at hd
    cases r; cases r'
    simp_all

/-- Writing through node handles that address the same cell is the same write. -/
theorem writeN_congr {x y : Node} (h : sameSlot x y) (s : Mstate) (v : Node) :
    writeN s x v = writeN s y v := by
  unfold writeN
  rw [h.1]
  cases s[y.q]? with
  | none => rfl
  | some r => simp only [setSlot_congr r h.2]

/-- Writing twice to the same cell: only the second write survives. -/
theorem writeN_writeN_cancel {x y : Node} (h : sameSlot x y) (s : Mstate)
    (u v : Node) : writeN (writeN s x u) y v = writeN s y v := by
  apply stateExt
  · simp [length_writeN]
  · intro n
    rw [readN_writeN, readN_writeN, readN_writeN, length_writeN]
    by_cases hyn : sameSlot y n ∧ y.q < s.length
    · simp [hyn]
    · have hxn : ¬ (sameSlot x n ∧ x.q < s.length) := by
        rintro ⟨h1, h2⟩
        exact hyn ⟨sameSlot_trans (sameSlot_symm h) h1, by rw [← h.1]; exact h2⟩
      simp [hyn, hxn]
  · intro q
    simp [dataOf_writeN]

/-- Writes to different cells commute. -/
theorem writeN_comm {x y : Node} (h : ¬ sameSlot x y) (s : Mstate)
    (u v : Node) : writeN (writeN s x u) y v = writeN (writeN s y v) x u := by
  apply stateExt
  · simp [length_writeN]
  · intro n
    rw [readN_writeN, readN_writeN, readN_writeN, readN_writeN,
      length_writeN, length_writeN]
    by_cases hyn : sameSlot y n ∧ y.q < s.length
    · have hxn : ¬ (sameSlot x n ∧ x.q < s.length) := by
        rintro ⟨h1, _⟩
        exact h (sameSlot_trans h1 (sameSlot_symm hyn.1))
      simp [hyn, hxn]
    · simp [hyn]
  · intro q
    simp [dataOf_writeN]

/-- `Node::swap` is symmetric in its two arguments. -/
theorem swapN_comm (s : Mstate) (a b : Node) : swapN s a b = swapN s b a := by
  unfold swapN
  cases ha : readN s a with
  | none =>
    cases hb : readN s b with
    | none => simp
    | some tb => simp
  | some ta =>
    cases hb : readN s b with
    | none => simp
    | some tb =>
      simp only [Option.bind_eq_bind, Option.some_bind, Option.pure_def]
      congr 1
      by_cases hss : sameSlot a b
      · have hv : ta = tb := by
          have hc := readN_congr s hss
          rw [ha, hb] at hc
          exact Option.some.inj hc
        subst hv
        rw [writeN_writeN_cancel hss, writeN_writeN_cancel (sameSlot_symm hss)]
        exact writeN_congr (sameSlot_symm hss) s ta
      · exact writeN_comm hss s tb ta

theorem swapN_eq {s : Mstate} {a b ta tb : Node} (ha : readN s a = some ta)
    (hb : readN s b = some tb) :
    swapN s a b = some (writeN (writeN s a tb) b ta) := by
  unfold swapN
  rw [ha, hb]
  rfl

theorem swapN_none_left {s : Mstate} {a : Node} (ha : readN s a = none) (b : Node) :
    swapN s a b = none := by
  unfold swapN
  rw [ha]
  rfl

theorem swapN_none_right {s : Mstate} {b : Node} (hb : readN s b = none) (a : Node) :
    swapN s a b = none := by
  unfold swapN
  cases readN s a with
  | none => rfl
  | some ta => rw [hb]; rfl

/-- After the first exchange, reading at `a` yields the old `Onext(b)`. -/
theorem readN_after_swap_left {s : Mstate} {a b ta tb : Node}
    (ha : readN s a = some ta) (hb : readN s b = some tb) :
    readN (writeN (writeN s a tb) b ta) a = some tb := by
  have hal : a.q < s.length := readN_lt ha
  rw [readN_writeN, readN_writeN, length_writeN]
  by_cases hba : sameSlot b a
  · have hv : tb = ta := by
      have hc := readN_congr s hba
      rw [hb, ha] at hc
      exact Option.some.inj hc
    have hbl : b.q < s.length := readN_lt hb
    simp [hba, hbl, hv]
  · simp [hba, sameSlot_refl, hal]

/-- After the first exchange, reading at `b` yields the old `Onext(a)`. -/
theorem readN_after_swap_right {s : Mstate} {a b ta tb : Node}
    (_ : readN s a = some ta) (hb : readN s b = some tb) :
    readN (writeN (writeN s a tb) b ta) b = some ta := by
  have hbl : b.q < s.length := readN_lt hb
  rw [readN_writeN, length_writeN]
  simp [sameSlot_refl, hbl]

/--
**C1.** `Node::splice` exchanges the next-pointers stored at `a` and `b` and
then the ones stored at `α = Rot(Onext(a))` and `β = Rot(Onext(b))`, with
`Onext` taken in the pre-state; although the implementation computes the dual
pair only after the first swap, the resulting state (including the failure
behaviour on uninitialized cells) is exactly the Guibas–Stolfi canonical form.
-/
theorem splice_eq_spec_canonical (s : Mstate) (a b : Node) :
    splice? s a b = spliceSpecCanonical s a b := by
  unfold splice? spliceSpecCanonical
  cases ha : readN s a with
  | none =>
    rw [swapN_none_left ha]
    rfl
  | some ta =>
    cases hb : readN s b with
    | none =>
      rw [swapN_none_right hb]
      simp
    | some tb =>
      rw [swapN_eq ha hb]
      simp only [Option.bind_eq_bind, Option.some_bind,
        readN_after_swap_left ha hb, readN_after_swap_right ha hb]
      exact swapN_comm _ _ _

/-! ## `set_all` and `make_quad` -/

theorem length_setAll (s : Mstate) (q : Nat) (v0 v1 v2 v3 : Node) :
    (setAll s q v0 v1 v2 v3).length = s.length := by
  unfold setAll
  simp [length_writeN]

theorem dataOf_setAll (s : Mstate) (q p : Nat) (v0 v1 v2 v3 : Node) :
    dataOf (setAll s q v0 v1 v2 v3) p = dataOf s p := by
  unfold setAll
  simp [dataOf_writeN]

theorem readN_setAll (s : Mstate) (q : Nat) (v0 v1 v2 v3 : Node)
    (hq : q < s.length) (n : Node) :
    readN (setAll s q v0 v1 v2 v3) n =
      if n.q = q then
        some (match n.i % 4 with | 0 => v0 | 1 => v1 | 2 => v2 | _ => v3)
      else readN s n := by
  unfold setAll
  rw [readN_writeN, readN_writeN, readN_writeN, readN_writeN]
  simp only [length_writeN]
  by_cases hq' : n.q = q
  · have h4 : n.i % 4 = 0 ∨ n.i % 4 = 1 ∨ n.i % 4 = 2 ∨ n.i % 4 = 3 := by omega
    rcases h4 with h | h | h | h <;>
      simp [sameSlot, h, hq', hq]
  · have hne : q ≠ n.q := fun h => hq' h.symm
    simp [sameSlot, hne, hq']

theorem length_make_quad (s : Mstate) :
    (make_quad s).length = s.length + 1 := by
  unfold make_quad
  simp [length_setAll]

theorem dataOf_make_quad_old (s : Mstate) (p : Nat) (hp : p < s.length) :
    dataOf (make_quad s) p = dataOf s p := by
  unfold make_quad
  rw [dataOf_setAll]
  unfold dataOf
  rw [List.getElem?_append_left hp]

theorem readN_make_quad (s : Mstate) (n : Node) :
    readN (make_quad s) n =
      if n.q = s.length then
        some (match n.i % 4 with
              | 0 => (⟨s.length, 0⟩ : Node) | 1 => ⟨s.length, 3⟩
              | 2 => ⟨s.length, 2⟩ | _ => ⟨s.length, 1⟩)
      else readN s n := by
  unfold make_quad
  rw [readN_setAll _ _ _ _ _ _ (by simp)]
  by_cases hq : n.q = s.length
  · simp [hq]
  · simp only [hq, if_false]
    by_cases hlt : n.q < s.length
    · unfold readN
      rw [List.getElem?_append_left hlt]
    · have h2 : (s ++ [defaultRecord]).length ≤ n.q := by
        simp only [List.length_append, List.length_singleton]
        omega
      rw [readN_oob h2, readN_oob (by omega : s.length ≤ n.q)]

/--
**C3.** A record freshly created by `make_quad` carries the isolated-edge
pattern: `Onext(q,0) = (q,0)`, `Onext(q,1) = (q,3)`, `Onext(q,2) = (q,2)`,
`Onext(q,3) = (q,1)`.
-/
theorem make_quad_isolated (s : Mstate) :
    readN (make_quad s) ⟨s.length, 0⟩ = some ⟨s.length, 0⟩ ∧
    readN (make_quad s) ⟨s.length, 1⟩ = some ⟨s.length, 3⟩ ∧
    readN (make_quad s) ⟨s.length, 2⟩ = some ⟨s.length, 2⟩ ∧
    readN (make_quad s) ⟨s.length, 3⟩ = some ⟨s.length, 1⟩ := by
  refine ⟨?_, ?_, ?_, ?_⟩ <;> rw [readN_make_quad] <;> simp

/--
**C4.** In the source, `QuadEdge::orig` and `QuadEdge::dest` both return
`self.ind(2)`: evaluated on record 0, both accessors yield position 2,
contradicting the specified mapping Origin ↔ position 0.
-/
theorem orig_dest_bug : orig 0 = (⟨0, 2⟩ : Node) ∧ dest 0 = (⟨0, 2⟩ : Node) := by
  constructor <;> rfl

/-! ## Invariants and the splice involution -/

/-- Every next-pointer cell of every record is initialized (spec: slots hold
`Some` after construction). -/
def AllInit (s : Mstate) : Prop :=
  ∀ n : Node, n.q < s.length → (readN s n).isSome

/-- Every stored next-pointer references a record of the manifold (spec I5). -/
def InRange (s : Mstate) : Prop :=
  ∀ n m : Node, readN s n = some m → m.q < s.length

/-- Every stored next-pointer preserves index parity (spec I2). -/
def ParityInv (s : Mstate) : Prop :=
  ∀ n m : Node, readN s n = some m → m.i % 2 = n.i % 2

theorem sameSlot_parity {u w : Node} (h : sameSlot u w) : u.i % 2 = w.i % 2 := by
  have h2 := h.2
  have hu : u.i % 4 % 2 = u.i % 2 := Nat.mod_mod_of_dvd _ (by omega)
  have hw : w.i % 4 % 2 = w.i % 2 := Nat.mod_mod_of_dvd _ (by omega)
  omega

theorem rot_parity (n : Node) : n.rot.i % 2 = (n.i + 1) % 2 := by
  simp only [Node.rot]
  exact Nat.mod_mod_of_dvd _ (by omega)

theorem rot_q (n : Node) : n.rot.q = n.q := rfl

theorem readN_isSome {s : Mstate} (h : AllInit s) {n : Node}
    (hn : n.q < s.length) : ∃ v, readN s n = some v := by
  cases hv : readN s n with
  | none => exact absurd (h n hn) (by simp [hv])
  | some v => exact ⟨v, rfl⟩

set_option maxHeartbeats 2000000 in
/--
**C2 (amended).** On any manifold state whose next-pointer cells are all
initialized, reference records of the manifold, and preserve index parity
(spec invariants I2 and I5 — true of every state built by `make_quad` and
equal-parity `splice`, though violable through `import`), splicing the same
equal-parity pair twice restores the state exactly.
-/
theorem splice_involution (s : Mstate) (a b : Node)
    (hInit : AllInit s) (hRange : InRange s) (hPar : ParityInv s)
    (ha : a.q < s.length) (hb : b.q < s.length)
    (hpab : a.i % 2 = b.i % 2) :
    spliceTwice s a b = some s := by
  obtain ⟨na, hna⟩ := readN_isSome hInit ha
  obtain ⟨nb, hnb⟩ := readN_isSome hInit hb
  have hnaq : na.q < s.length := hRange _ _ hna
  have hnbq : nb.q < s.length := hRange _ _ hnb
  have hnap : na.i % 2 = a.i % 2 := hPar _ _ hna
  have hnbp : nb.i % 2 = b.i % 2 := hPar _ _ hnb
  -- The four cells touched: a, b (primal) and x = Rot(nb), y = Rot(na) (dual).
  -- The dual cells have the opposite index parity, so they are disjoint
  -- from the primal ones.
  have hxa : ¬ sameSlot nb.rot a := fun h => by
    have hp := sameSlot_parity h
    rw [rot_parity] at hp
    omega
  have hxb : ¬ sameSlot nb.rot b := fun h => by
    have hp := sameSlot_parity h
    rw [rot_parity] at hp
    omega
  have hya : ¬ sameSlot na.rot a := fun h => by
    have hp := sameSlot_parity h
    rw [rot_parity] at hp
    omega
  have hyb : ¬ sameSlot na.rot b := fun h => by
    have hp := sameSlot_parity h
    rw [rot_parity] at hp
    omega
  have hxq : nb.rot.q < s.length := by rw [rot_q]; exact hnbq
  have hyq : na.rot.q < s.length := by rw [rot_q]; exact hnaq
  -- State after the first exchange.
  have h1a : readN (writeN (writeN s a nb) b na) a = some nb :=
    readN_after_swap_left hna hnb
  have h1b : readN (writeN (writeN s a nb) b na) b = some na :=
    readN_after_swap_right hna hnb
  have hlen1 : (writeN (writeN s a nb) b na).length = s.length := by
    simp [length_writeN]
  -- Reads at the dual cells are untouched by the first exchange.
  obtain ⟨vx, hvx⟩ := readN_isSome hInit hxq
  obtain ⟨vy, hvy⟩ := readN_isSome hInit hyq
  have hRx : readN (writeN (writeN s a nb) b na) nb.rot = some vx := by
    rw [readN_writeN, readN_writeN, length_writeN]
    rw [if_neg fun h => hxb (sameSlot_symm h.1), if_neg fun h => hxa (sameSlot_symm h.1)]
    exact hvx
  have hRy : readN (writeN (writeN s a nb) b na) na.rot = some vy := by
    rw [readN_writeN, readN_writeN, length_writeN]
    rw [if_neg fun h => hyb (sameSlot_symm h.1), if_neg fun h => hya (sameSlot_symm h.1)]
    exact hvy
  -- The first splice call.
  have hsplice1 : splice? s a b =
      some (writeN (writeN (writeN (writeN s a nb) b na) nb.rot vy) na.rot vx) := by
    unfold splice?
    rw [swapN_eq hna hnb]
    simp only [Option.bind_eq_bind, Option.some_bind, h1a, h1b]
    exact swapN_eq hRx hRy
  -- Names for the intermediate states.
  have hlen2 : (writeN (writeN (writeN (writeN s a nb) b na) nb.rot vy) na.rot vx).length
      = s.length := by
    simp [length_writeN]
  -- After the first splice, the primal cells hold the exchanged values.
  have h2a : readN (writeN (writeN (writeN (writeN s a nb) b na) nb.rot vy) na.rot vx) a
      = some nb := by
    rw [readN_writeN, readN_writeN, length_writeN, hlen1]
    rw [if_neg fun h => hya h.1, if_neg fun h => hxa h.1]
    exact h1a
  have h2b : readN (writeN (writeN (writeN (writeN s a nb) b na) nb.rot vy) na.rot vx) b
      = some na := by
    rw [readN_writeN, readN_writeN, length_writeN, hlen1]
    rw [if_neg fun h => hyb h.1, if_neg fun h => hxb h.1]
    exact h1b
  -- After the first splice, the dual cells hold the exchanged dual values.
  have hs2x : readN (writeN (writeN (writeN (writeN s a nb) b na) nb.rot vy) na.rot vx) nb.rot
      = some vy := readN_after_swap_left hRx hRy
  have hs2y : readN (writeN (writeN (writeN (writeN s a nb) b na) nb.rot vy) na.rot vx) na.rot
      = some vx := readN_after_swap_right hRx hRy
  -- The second splice exchanges the primal cells back.
  have h3a := readN_after_swap_left h2a h2b
  have h3b := readN_after_swap_right h2a h2b
  -- The primal exchange of the second splice does not touch the dual cells.
  have h3x : readN (writeN (writeN (writeN (writeN (writeN (writeN s a nb) b na) nb.rot vy)
      na.rot vx) a na) b nb) nb.rot = some vy := by
    rw [readN_writeN, readN_writeN, length_writeN, hlen2]
    rw [if_neg fun h => hxb (sameSlot_symm h.1), if_neg fun h => hxa (sameSlot_symm h.1)]
    exact hs2x
  have h3y : readN (writeN (writeN (writeN (writeN (writeN (writeN s a nb) b na) nb.rot vy)
      na.rot vx) a na) b nb) na.rot = some vx := by
    rw [readN_writeN, readN_writeN, length_writeN, hlen2]
    rw [if_neg fun h => hyb (sameSlot_symm h.1), if_neg fun h => hya (sameSlot_symm h.1)]
    exact hs2y
  have hsplice2 : splice? (writeN (writeN (writeN (writeN s a nb) b na) nb.rot vy) na.rot vx) a b
      = some (writeN (writeN (writeN (writeN (writeN (writeN (writeN (writeN s a nb) b na)
          nb.rot vy) na.rot vx) a na) b nb) na.rot vy) nb.rot vx) := by
    unfold splice?
    rw [swapN_eq h2a h2b]
    simp only [Option.bind_eq_bind, Option.some_bind, h3a, h3b]
    exact swapN_eq h3y h3x
  -- The eight writes cancel: check every cell.
  have hfinal : (writeN (writeN (writeN (writeN (writeN (writeN (writeN (writeN s a nb) b na)
      nb.rot vy) na.rot vx) a na) b nb) na.rot vy) nb.rot vx) = s := by
    apply stateExt
    · simp only [length_writeN]
    · intro n
      simp only [readN_writeN, length_writeN]
      by_cases hnx : sameSlot nb.rot n
      · rw [if_pos ⟨hnx, hxq⟩, ← readN_congr s hnx, hvx]
      · have Nx : ¬ (sameSlot nb.rot n ∧ nb.rot.q < s.length) := fun h => hnx h.1
        rw [if_neg Nx]
        by_cases hny : sameSlot na.rot n
        · rw [if_pos ⟨hny, hyq⟩, ← readN_congr s hny, hvy]
        · have Ny : ¬ (sameSlot na.rot n ∧ na.rot.q < s.length) := fun h => hny h.1
          rw [if_neg Ny]
          by_cases hnb' : sameSlot b n
          · rw [if_pos ⟨hnb', hb⟩, ← readN_congr s hnb', hnb]
          · have Nb : ¬ (sameSlot b n ∧ b.q < s.length) := fun h => hnb' h.1
            rw [if_neg Nb]
            by_cases hna' : sameSlot a n
            · rw [if_pos ⟨hna', ha⟩, ← readN_congr s hna', hna]
            · have Na : ¬ (sameSlot a n ∧ a.q < s.length) := fun h => hna' h.1
              rw [if_neg Na, if_neg Ny, if_neg Nx, if_neg Nb, if_neg Na]
    · intro q
      simp only [dataOf_writeN]
  unfold spliceTwice
  rw [hsplice1]
  simp only [Option.bind_eq_bind, Option.some_bind]
  rw [hsplice2, hfinal]

/-! ## Serialization: `Manifold::export` and `Manifold::import`

`export` writes one JSON line per record in insertion order; a stored node
is printed as `[r,i]` where `r` is the ordinal of the referenced record
(the source looks the pointer up in a map built from `qrefs`; a pointer
outside the manifold would panic there, modelled by `none`) and `i` is the
raw stored index.  `import` reads lines (`BufRead::lines` semantics),
parses each as serde does for `[(usize, u8); 4]`, allocates one fresh quad
per line, and in a second pass resolves ordinals — panicking (not erring)
on an out-of-range ordinal via `rel[i0]` indexing. -/

abbrev Vec4 := (Nat × Nat) × (Nat × Nat) × (Nat × Nat) × (Nat × Nat)

def digitChar (d : Nat) : Char := Char.ofNat (48 + d)

def natToCharsAux : Nat → Nat → List Char
  | 0, _ => []
  | fuel + 1, n =>
    if n < 10 then [digitChar n]
    else natToCharsAux fuel (n / 10) ++ [digitChar (n % 10)]

/-- Decimal rendering of a nonnegative integer, as Rust's `write!("{}", n)`. -/
def natToChars (n : Nat) : List Char := natToCharsAux (n + 1) n

def digitsVal (ds : List Char) : Nat := ds.foldl (fun a c => a * 10 + (c.toNat - 48)) 0

/-- JSON whitespace (what serde_json skips between tokens). -/
def isWsC (c : Char) : Bool := c == ' ' || c == '\t' || c == '\n' || c == '\r'

def skipWs : List Char → List Char
  | [] => []
  | c :: r => if isWsC c then skipWs r else c :: r

/-- A JSON nonnegative integer literal: a maximal digit run, without a
leading zero (except `0` itself). -/
def parseNat (cs : List Char) : Option (Nat × List Char) :=
  match cs.takeWhile Char.isDigit with
  | [] => none
  | c :: ds =>
    if c = '0' ∧ ds ≠ [] then none
    else some (digitsVal (c :: ds), cs.dropWhile Char.isDigit)

/-- Skip whitespace, then demand the token character `ch`. -/
def expectC (ch : Char) (cs : List Char) : Option (List Char) :=
  match skipWs cs with
  | c :: rest => if c = ch then some rest else none
  | [] => none

/-- One `[r,i]` element, parsed as serde parses a `(usize, u8)` tuple:
a two-element JSON array whose entries must fit the integer types. -/
def parsePair (cs : List Char) : Option ((Nat × Nat) × List Char) := do
  let cs1 ← expectC '[' cs
  let (r, cs2) ← parseNat (skipWs cs1)
  if 2 ^ 64 ≤ r then none else
  let cs3 ← expectC ',' cs2
  let (i, cs4) ← parseNat (skipWs cs3)
  if 2 ^ 8 ≤ i then none else
  let cs5 ← expectC ']' cs4
  pure ((r, i), cs5)

/-- One line, parsed as serde_json's `from_str::<[(usize, u8); 4]>`: exactly
four `[r,i]` elements, with arbitrary whitespace between tokens and only
whitespace after the closing bracket. -/
def parseLine (cs : List Char) : Option Vec4 := do
  let cs1 ← expectC '[' cs
  let (p0, cs2) ← parsePair cs1
  let cs3 ← expectC ',' cs2
  let (p1, cs4) ← parsePair cs3
  let cs5 ← expectC ',' cs4
  let (p2, cs6) ← parsePair cs5
  let cs7 ← expectC ',' cs6
  let (p3, cs8) ← parsePair cs7
  let cs9 ← expectC ']' cs8
  if skipWs cs9 = [] then pure (p0, p1, p2, p3) else none

def stripCR (l : List Char) : List Char :=
  if l.getLast? = some '\r' then l.dropLast else l

def linesGo : List Char → List Char → List (List Char)
  | acc, [] => if acc.isEmpty then [] else [acc.reverse]
  | acc, c :: rest =>
    if c = '\n' then stripCR acc.reverse :: linesGo [] rest
    else linesGo (c :: acc) rest

/-- `BufRead::lines`: split at `'\n'`, strip a `'\r'` before each split
point, keep a nonempty final segment. -/
def linesOf (cs : List Char) : List (List Char) := linesGo [] cs

def pairChars (v : Node) : List Char :=
  '[' :: (natToChars v.q ++ ',' :: (natToChars v.i ++ [']']))

def nullChars : List Char := ['n', 'u', 'l', 'l']

/-- Printing one slot: `null` for an uninitialized cell, else `[r,i]`;
`none` models the panic on a record not in the ordinal map. -/
def slotChars (len : Nat) : Option Node → Option (List Char)
  | none => some nullChars
  | some v => if v.q < len then some (pairChars v) else none

def pcChars : Option Node → List Char
  | none => nullChars
  | some v => pairChars v

/-- The line a fully resolvable record prints as, without the newline. -/
def bodyChars (r : QuadRecord) : List Char :=
  '[' :: (pcChars r.n0 ++ ',' :: (pcChars r.n1 ++ ',' ::
    (pcChars r.n2 ++ ',' :: (pcChars r.n3 ++ [']']))))

def recordChars (len : Nat) (r : QuadRecord) : Option (List Char) :=
  match slotChars len r.n0, slotChars len r.n1,
      slotChars len r.n2, slotChars len r.n3 with
  | some c0, some c1, some c2, some c3 =>
    some ('[' :: (c0 ++ ',' :: (c1 ++ ',' :: (c2 ++ ',' :: (c3 ++ ']' :: ['\n'])))))
  | _, _, _, _ => none

/-- `Manifold::export`. -/
def exportChars (s : Mstate) : Option (List Char) :=
  (s.mapM (recordChars s.length)).map List.flatten

inductive ImportOut where
  | ok (s : Mstate)
  | parseErr
  | boundsFault
deriving DecidableEq

def ImportOut.isOk : ImportOut → Bool
  | .ok _ => true
  | _ => false

/-- Pass 2 of `import`: `set_all` on record `q` with the nodes named by the
parsed line, ordinals shifted by `base` (records made by this call). -/
def applyVals : Mstate → Nat → Nat → List Vec4 → Mstate
  | s, _, _, [] => s
  | s, base, q, v :: rest =>
    applyVals (setAll s q ⟨base + v.1.1, v.1.2⟩ ⟨base + v.2.1.1, v.2.1.2⟩
      ⟨base + v.2.2.1.1, v.2.2.1.2⟩ ⟨base + v.2.2.2.1, v.2.2.2.2⟩) base (q + 1) rest

def vec4InRange (n : Nat) (v : Vec4) : Bool :=
  decide (v.1.1 < n) && decide (v.2.1.1 < n) && decide (v.2.2.1.1 < n) &&
    decide (v.2.2.2.1 < n)

/-- `Manifold::import`: parse every line (first parse failure is returned as
an error), allocate one quad per line, then resolve; `rel[i]` with `i` out
of range panics (`boundsFault`), it does not return an error. -/
def importOut (s0 : Mstate) (input : List Char) : ImportOut :=
  match (linesOf input).mapM parseLine with
  | none => .parseErr
  | some vals =>
    if vals.all (vec4InRange vals.length) then
      .ok (applyVals (vals.foldl (fun s _ => make_quad s) s0) s0.length s0.length vals)
    else .boundsFault

/-- The manifold states producible through the public constructors:
the empty manifold, `make_quad`, equal-parity `splice`, and a successful
`import`. -/
inductive Reachable : Mstate → Prop where
  | empty : Reachable []
  | make {s} : Reachable s → Reachable (make_quad s)
  | splice {s s' : Mstate} {a b : Node} : Reachable s → a.i % 2 = b.i % 2 →
      splice? s a b = some s' → Reachable s'
  | imported {s s' : Mstate} {input : List Char} : Reachable s →
      importOut s input = .ok s' → Reachable s'

/-! ## Error behaviour of `import`, splice preconditions, frame property -/

theorem mapM_none {α β : Type} {f : α → Option β} {ls : List α} {x : α}
    (hmem : x ∈ ls) (hx : f x = none) : ls.mapM f = none := by
  induction ls with
  | nil => cases hmem
  | cons a as ih =>
    rw [List.mapM_cons]
    rcases List.mem_cons.1 hmem with rfl | hmem'
    · simp [hx]
    · cases hf : f a with
      | none => simp
      | some b =>
        simp only [hf, ih hmem', Option.bind_eq_bind, Option.some_bind,
          Option.none_bind]

/--
**C6.** On the two-record manifold of scenario S6, `export` produces exactly
`[[1,3],[0,2],[1,1],[0,0]]\n[[0,0],[1,1],[0,2],[1,3]]\n`: records in
insertion order, one four-element JSON line each, no separator beyond the
final newline.
-/
theorem export_literal :
    exportChars [⟨some ⟨1, 3⟩, some ⟨0, 2⟩, some ⟨1, 1⟩, some ⟨0, 0⟩,
        none, none, none, none⟩,
      ⟨some ⟨0, 0⟩, some ⟨1, 1⟩, some ⟨0, 2⟩, some ⟨1, 3⟩,
        none, none, none, none⟩] =
    some "[[1,3],[0,2],[1,1],[0,0]]\n[[0,0],[1,1],[0,2],[1,3]]\n".toList := by
  decide

/--
**C5 (counterexample).** A position index outside `{0,1,2,3}` (here 7) is
not rejected: `import` parses it as a `u8` and succeeds, contradicting the
claim that such an input yields an error.
-/
theorem import_accepts_index_out_of_range :
    (importOut [] "[[0,7],[0,1],[0,2],[0,3]]".toList).isOk = true := by
  decide

/--
**C5 (amended).** `import` returns the parse-error variant whenever some
line fails to parse as a JSON array of exactly four `[r,i]` integer pairs
with `r` fitting `usize` and `i` fitting `u8` (malformed JSON, wrong element
count, non-integer entries, `i > 255`); but an ordinal out of range of the
stream panics (`boundsFault`) instead of returning an error, and an index in
`{4,…,255}` is accepted silently.
-/
theorem import_error_behaviour :
    (∀ (s : Mstate) (input : List Char),
        (∃ l ∈ linesOf input, parseLine l = none) → importOut s input = .parseErr) ∧
    importOut [] "[[5,0],[0,1],[0,2],[0,3]]".toList = .boundsFault ∧
    (importOut [] "[[0,7],[0,1],[0,2],[0,3]]".toList).isOk = true := by
  refine ⟨?_, by decide, by decide⟩
  rintro s input ⟨l, hmem, hl⟩
  unfold importOut
  rw [mapM_none hmem hl]

theorem import_error_behaviour_witness :
    importOut [] "notjson".toList = .parseErr :=
  import_error_behaviour.1 [] _ ⟨"notjson".toList, by decide, by decide⟩

/-- The state reached by importing `[[0,0],[0,0],[0,0],[0,1]]`: its
next-pointers do not preserve index parity. -/
def badState : Mstate :=
  [⟨some ⟨0, 0⟩, some ⟨0, 0⟩, some ⟨0, 0⟩, some ⟨0, 1⟩, none, none, none, none⟩]

/--
**C2 (counterexample).** A reachable state (obtained by a successful
`import` through the public interface) on which splicing the initialized,
equal-parity pair `((0,1), (0,3))` twice does **not** restore the
next-pointers.
-/
theorem splice_involution_fails_on_imported_state :
    Reachable badState ∧
    (⟨0, 1⟩ : Node).i % 2 = (⟨0, 3⟩ : Node).i % 2 ∧
    (readN badState ⟨0, 1⟩).isSome = true ∧
    (readN badState ⟨0, 3⟩).isSome = true ∧
    spliceTwice badState ⟨0, 1⟩ ⟨0, 3⟩ ≠ some badState := by
  refine ⟨@Reachable.imported [] badState "[[0,0],[0,0],[0,0],[0,1]]".toList
    Reachable.empty (by decide), by decide, by decide, by decide, by decide⟩

/-- A decidable per-slot check implying the three state invariants. -/
def slotOk (len j : Nat) : Option Node → Bool
  | none => false
  | some m => decide (m.q < len) && decide (m.i % 2 = j % 2) && decide (m.i < 2 ^ 8)

/-- The bounded (hence decidable) form of the state invariants. -/
def checkedState (s : Mstate) : Prop :=
  ∀ p < s.length, ∀ j < 4, slotOk s.length j (readN s ⟨p, j⟩) = true

instance (s : Mstate) : Decidable (checkedState s) := by
  unfold checkedState
  infer_instance

theorem invariants_of_checked {s : Mstate} (h : checkedState s) :
    AllInit s ∧ InRange s ∧ ParityInv s ∧
      (∀ n m : Node, readN s n = some m → m.i < 2 ^ 8) := by
  have key : ∀ n : Node, n.q < s.length →
      slotOk s.length (n.i % 4) (readN s n) = true := by
    intro n hn
    have hcg : readN s n = readN s ⟨n.q, n.i % 4⟩ :=
      readN_congr _ ⟨rfl, (Nat.mod_mod_of_dvd _ (dvd_refl 4)).symm⟩
    rw [hcg]
    exact h n.q hn (n.i % 4) (by omega)
  refine ⟨?_, ?_, ?_, ?_⟩
  · intro n hn
    have := key n hn
    cases hr : readN s n with
    | none => rw [hr] at this; exact absurd this (by simp [slotOk])
    | some m => simp
  · intro n m hm
    have hn : n.q < s.length := readN_lt hm
    have := key n hn
    rw [hm] at this
    simp [slotOk] at this
    exact this.1.1
  · intro n m hm
    have hn : n.q < s.length := readN_lt hm
    have := key n hn
    rw [hm] at this
    simp [slotOk] at this
    have h42 : n.i % 4 % 2 = n.i % 2 := Nat.mod_mod_of_dvd _ (by omega)
    omega
  · intro n m hm
    have hn : n.q < s.length := readN_lt hm
    have := key n hn
    rw [hm] at this
    simp [slotOk] at this
    exact this.2

theorem splice_involution_witness :
    spliceTwice (make_quad []) ⟨0, 0⟩ ⟨0, 2⟩ = some (make_quad []) := by
  obtain ⟨h1, h2, h3, _⟩ :=
    invariants_of_checked (s := make_quad []) (by decide)
  exact splice_involution (make_quad []) ⟨0, 0⟩ ⟨0, 2⟩ h1 h2 h3
    (by decide) (by decide) (by decide)

theorem allInit_writeN {s : Mstate} (h : AllInit s) (x v : Node) :
    AllInit (writeN s x v) := by
  intro n hn
  rw [length_writeN] at hn
  rw [readN_writeN]
  split
  · simp
  · exact h n hn

/--
**C8 (counterexample).** `Node::splice` contains no parity check: called on
the isolated edge with the unequal-parity pair `((0,0), (0,3))` it neither
fails nor leaves the state unchanged — it simply performs the exchanges.
-/
theorem splice_proceeds_on_unequal_parity :
    (⟨0, 0⟩ : Node).i % 2 ≠ (⟨0, 3⟩ : Node).i % 2 ∧
    splice? (make_quad []) ⟨0, 0⟩ ⟨0, 3⟩ ≠ none ∧
    splice? (make_quad []) ⟨0, 0⟩ ⟨0, 3⟩ ≠ some (make_quad []) := by
  decide

/--
**C8 (amended).** `splice` never checks parity: on any two nodes of an
initialized, in-range state it returns normally (performing its two
exchanges) whatever the parities of the indices; the parity precondition of
the spec is not surfaced by the implementation.
-/
theorem splice_no_parity_check (s : Mstate) (a b : Node)
    (hInit : AllInit s) (hRange : InRange s)
    (ha : a.q < s.length) (hb : b.q < s.length) :
    (splice? s a b).isSome = true := by
  obtain ⟨na, hna⟩ := readN_isSome hInit ha
  obtain ⟨nb, hnb⟩ := readN_isSome hInit hb
  have h1a := readN_after_swap_left hna hnb
  have h1b := readN_after_swap_right hna hnb
  unfold splice?
  rw [swapN_eq hna hnb]
  simp only [Option.bind_eq_bind, Option.some_bind, h1a, h1b]
  have hInit1 : AllInit (writeN (writeN s a nb) b na) :=
    allInit_writeN (allInit_writeN hInit _ _) _ _
  have hlen1 : (writeN (writeN s a nb) b na).length = s.length := by
    simp [length_writeN]
  obtain ⟨vx, hvx⟩ := readN_isSome hInit1 (n := nb.rot)
    (by rw [hlen1, rot_q]; exact hRange _ _ hnb)
  obtain ⟨vy, hvy⟩ := readN_isSome hInit1 (n := na.rot)
    (by rw [hlen1, rot_q]; exact hRange _ _ hna)
  rw [swapN_eq hvx hvy]
  rfl

theorem splice_no_parity_check_witness :
    (splice? (make_quad []) ⟨0, 0⟩ ⟨0, 1⟩).isSome = true := by
  obtain ⟨h1, h2, _, _⟩ := invariants_of_checked (s := make_quad []) (by decide)
  exact splice_no_parity_check _ _ _ h1 h2 (by decide) (by decide)

/--
**C10.** `splice(a, b)` writes at most the four cells `a`, `b`,
`Rot(Onext(a))` and `Rot(Onext(b))` (`Onext` in the pre-state): every other
next-pointer cell, every payload cell, and the record count are unchanged.
-/
theorem splice_frame (s : Mstate) (a b na nb : Node) (s' : Mstate)
    (hna : readN s a = some na) (hnb : readN s b = some nb)
    (hs : splice? s a b = some s') :
    (∀ n : Node, ¬ sameSlot a n → ¬ sameSlot b n → ¬ sameSlot na.rot n →
        ¬ sameSlot nb.rot n → readN s' n = readN s n) ∧
    (∀ q, dataOf s' q = dataOf s q) ∧ s'.length = s.length := by
  unfold splice? at hs
  rw [swapN_eq hna hnb] at hs
  simp only [Option.bind_eq_bind, Option.some_bind,
    readN_after_swap_left hna hnb, readN_after_swap_right hna hnb] at hs
  unfold swapN at hs
  cases hvx : readN (writeN (writeN s a nb) b na) nb.rot with
  | none => rw [hvx] at hs; exact absurd hs (by simp)
  | some vx =>
    cases hvy : readN (writeN (writeN s a nb) b na) na.rot with
    | none =>
      rw [hvx, hvy] at hs
      exact absurd hs (by simp)
    | some vy =>
      rw [hvx, hvy] at hs
      simp only [Option.bind_eq_bind, Option.some_bind, Option.pure_def] at hs
      obtain rfl : (writeN (writeN (writeN (writeN s a nb) b na) nb.rot vy) na.rot vx)
          = s' := Option.some.inj hs
      refine ⟨?_, ?_, ?_⟩
      · intro n hA hB hY hX
        simp only [readN_writeN, length_writeN]
        rw [if_neg fun h => hY h.1, if_neg fun h => hX h.1,
          if_neg fun h => hB h.1, if_neg fun h => hA h.1]
      · intro q
        simp only [dataOf_writeN]
      · simp only [length_writeN]

theorem splice_frame_witness :
    (splice? (make_quad (make_quad [])) ⟨0, 0⟩ ⟨0, 2⟩).map (fun t => readN t ⟨1, 0⟩)
      = some (readN (make_quad (make_quad [])) ⟨1, 0⟩) := by
  cases hs : splice? (make_quad (make_quad [])) ⟨0, 0⟩ ⟨0, 2⟩ with
  | none => exact absurd hs (by decide)
  | some t =>
    have h := (splice_frame (make_quad (make_quad [])) ⟨0, 0⟩ ⟨0, 2⟩ ⟨0, 0⟩ ⟨0, 2⟩ t
      (by decide) (by decide) hs).1 ⟨1, 0⟩ (by decide) (by decide) (by decide) (by decide)
    simp [h]

/-! ## Totality of `Onext` on reachable states -/

theorem allInit_setAll {s : Mstate} (h : AllInit s) (q : Nat) (v0 v1 v2 v3 : Node) :
    AllInit (setAll s q v0 v1 v2 v3) := by
  unfold setAll
  exact allInit_writeN (allInit_writeN (allInit_writeN (allInit_writeN h _ _) _ _) _ _) _ _

theorem allInit_make_quad {s : Mstate} (h : AllInit s) : AllInit (make_quad s) := by
  intro n hn
  rw [length_make_quad] at hn
  rw [readN_make_quad]
  by_cases hq : n.q = s.length
  · simp [hq]
  · simp only [hq, if_false]
    exact h n (by omega)

theorem allInit_foldl_make {α : Type} {vals : List α} {s : Mstate} (h : AllInit s) :
    AllInit (vals.foldl (fun s _ => make_quad s) s) := by
  induction vals generalizing s with
  | nil => exact h
  | cons v rest ih => exact ih (allInit_make_quad h)

theorem allInit_applyVals {vals : List Vec4} {s : Mstate} (h : AllInit s)
    (base q : Nat) : AllInit (applyVals s base q vals) := by
  induction vals generalizing s q with
  | nil => exact h
  | cons v rest ih => exact ih (allInit_setAll h _ _ _ _ _) _

theorem swapN_some {s t : Mstate} {a b : Node} (h : swapN s a b = some t) :
    ∃ ta tb, readN s a = some ta ∧ readN s b = some tb ∧
      t = writeN (writeN s a tb) b ta := by
  unfold swapN at h
  cases ha : readN s a with
  | none => rw [ha] at h; exact absurd h (by simp)
  | some ta =>
    cases hb : readN s b with
    | none => rw [ha, hb] at h; exact absurd h (by simp)
    | some tb =>
      rw [ha, hb] at h
      simp only [Option.bind_eq_bind, Option.some_bind, Option.pure_def] at h
      exact ⟨ta, tb, rfl, rfl, (Option.some.inj h).symm⟩

theorem allInit_swapN {s t : Mstate} {a b : Node} (h : swapN s a b = some t)
    (hs : AllInit s) : AllInit t := by
  obtain ⟨ta, tb, _, _, rfl⟩ := swapN_some h
  exact allInit_writeN (allInit_writeN hs _ _) _ _

theorem allInit_splice {s t : Mstate} {a b : Node} (h : splice? s a b = some t)
    (hs : AllInit s) : AllInit t := by
  unfold splice? at h
  cases h1 : swapN s a b with
  | none => rw [h1] at h; exact absurd h (by simp)
  | some s1 =>
    rw [h1] at h
    simp only [Option.bind_eq_bind, Option.some_bind] at h
    cases h2 : readN s1 a with
    | none => rw [h2] at h; exact absurd h (by simp)
    | some na =>
      cases h3 : readN s1 b with
      | none => rw [h2, h3] at h; exact absurd h (by simp)
      | some nb =>
        rw [h2, h3] at h
        simp only [Option.some_bind] at h
        exact allInit_swapN h (allInit_swapN h1 hs)

theorem allInit_import {s0 s' : Mstate} {input : List Char}
    (h : importOut s0 input = .ok s') (hs : AllInit s0) : AllInit s' := by
  unfold importOut at h
  split at h
  · exact ImportOut.noConfusion h
  · split at h
    · cases h
      exact allInit_applyVals (allInit_foldl_make hs) _ _
    · exact ImportOut.noConfusion h

theorem reachable_allInit {s : Mstate} (hs : Reachable s) : AllInit s := by
  induction hs with
  | empty => intro n hn; simp at hn
  | make _ ih => exact allInit_make_quad ih
  | splice _ hpar hsp ih => exact allInit_splice hsp ih
  | imported _ him ih => exact allInit_import him ih

/--
**C9.** `Onext` is total on reachable states: in any state built from
`make_quad`, equal-parity `splice`, and successful `import`, every
next-pointer cell of every record is initialized, so the
`"Node not initialized"` failure branch of `QuadEdge::next` is unreachable.
-/
theorem onext_total_on_reachable {s : Mstate} (hs : Reachable s) :
    ∀ n : Node, n.q < s.length → (readN s n).isSome = true :=
  fun n hn => reachable_allInit hs n hn

theorem onext_total_on_reachable_witness :
    (readN (make_quad []) ⟨0, 2⟩).isSome = true :=
  onext_total_on_reachable (Reachable.make Reachable.empty) ⟨0, 2⟩ (by decide)

/-! ## Printer–parser agreement on canonical output -/

theorem digitChar_isDigit {d : Nat} (h : d < 10) : (digitChar d).isDigit = true := by
  interval_cases d <;> decide

theorem digitChar_val {d : Nat} (h : d < 10) : (digitChar d).toNat = 48 + d := by
  interval_cases d <;> decide

theorem digitChar_ne_zero {d : Nat} (h1 : 1 ≤ d) (h2 : d < 10) :
    digitChar d ≠ '0' := by
  interval_cases d <;> decide

theorem natToCharsAux_digits {fuel n : Nat} (h : n < fuel) :
    ∀ c ∈ natToCharsAux fuel n, c.isDigit = true := by
  induction fuel generalizing n with
  | zero => omega
  | succ fuel ih =>
    intro c hc
    unfold natToCharsAux at hc
    by_cases hn : n < 10
    · rw [if_pos hn] at hc
      simp at hc
      subst hc
      exact digitChar_isDigit hn
    · rw [if_neg hn] at hc
      rcases List.mem_append.1 hc with hc' | hc'
      · exact ih (by omega) c hc'
      · simp at hc'
        subst hc'
        exact digitChar_isDigit (by omega)

theorem digitsVal_concat (xs : List Char) (c : Char) :
    digitsVal (xs ++ [c]) = digitsVal xs * 10 + (c.toNat - 48) := by
  unfold digitsVal
  rw [List.foldl_append]
  rfl

theorem natToCharsAux_val {fuel n : Nat} (h : n < fuel) :
    digitsVal (natToCharsAux fuel n) = n := by
  induction fuel generalizing n with
  | zero => omega
  | succ fuel ih =>
    unfold natToCharsAux
    by_cases hn : n < 10
    · rw [if_pos hn]
      unfold digitsVal
      simp [digitChar_val hn]
    · rw [if_neg hn]
      rw [digitsVal_concat, ih (by
        have := Nat.div_lt_self (by omega : 0 < n) (by omega : 1 < 10)
        omega)]
      rw [digitChar_val (Nat.mod_lt _ (by omega))]
      omega

theorem natToCharsAux_shape {fuel n : Nat} (h : n < fuel) :
    ∃ c cs, natToCharsAux fuel n = c :: cs ∧ c.isDigit = true ∧
      (c = '0' → cs = []) := by
  induction fuel generalizing n with
  | zero => omega
  | succ fuel ih =>
    unfold natToCharsAux
    by_cases hn : n < 10
    · exact ⟨digitChar n, [], by rw [if_pos hn], digitChar_isDigit hn, fun _ => rfl⟩
    · rw [if_neg hn]
      have hdiv : n / 10 < fuel := by
        have := Nat.div_lt_self (by omega : 0 < n) (by omega : 1 < 10)
        omega
      obtain ⟨c, cs, he, hd, hz⟩ := ih hdiv
      refine ⟨c, cs ++ [digitChar (n % 10)], by rw [he]; simp, hd, ?_⟩
      intro hc0
      exfalso
      have hval := natToCharsAux_val hdiv
      rw [he, hz hc0] at hval
      have : digitsVal ['0'] = 0 := by decide
      rw [hc0] at hval
      rw [this] at hval
      omega

theorem natToChars_shape (n : Nat) :
    ∃ c cs, natToChars n = c :: cs ∧ c.isDigit = true ∧ (c = '0' → cs = []) :=
  natToCharsAux_shape (Nat.lt_succ_self n)

theorem natToChars_digits (n : Nat) : ∀ c ∈ natToChars n, c.isDigit = true :=
  natToCharsAux_digits (Nat.lt_succ_self n)

theorem natToChars_val (n : Nat) : digitsVal (natToChars n) = n :=
  natToCharsAux_val (Nat.lt_succ_self n)

theorem digit_not_ws {c : Char} (h : c.isDigit = true) : isWsC c = false := by
  cases hw : isWsC c
  · rfl
  · exfalso
    simp only [isWsC, Bool.or_eq_true, beq_iff_eq] at hw
    rcases hw with ((rfl | rfl) | rfl) | rfl <;> exact absurd h (by decide)

theorem skipWs_cons {c : Char} (h : isWsC c = false) (r : List Char) :
    skipWs (c :: r) = c :: r := by
  unfold skipWs
  rw [h]
  simp

theorem takeWhile_append_all {p : Char → Bool} {l r : List Char}
    (hl : ∀ c ∈ l, p c = true) (hr : ∀ c, r.head? = some c → p c = false) :
    (l ++ r).takeWhile p = l ∧ (l ++ r).dropWhile p = r := by
  induction l with
  | nil =>
    simp only [List.nil_append]
    cases r with
    | nil => exact ⟨rfl, rfl⟩
    | cons c t =>
      have := hr c rfl
      constructor
      · simp [List.takeWhile_cons, this]
      · simp [List.dropWhile_cons, this]
  | cons a l ih =>
    have ha : p a = true := hl a (List.mem_cons_self a l)
    obtain ⟨ht, hd⟩ := ih (fun c hc => hl c (List.mem_cons_of_mem a hc))
    constructor
    · simp [List.takeWhile_cons, ha, ht]
    · simp [List.dropWhile_cons, ha, hd]

theorem parseNat_print {n : Nat} {rest : List Char}
    (hrest : ∀ c, rest.head? = some c → c.isDigit = false) :
    parseNat (natToChars n ++ rest) = some (n, rest) := by
  obtain ⟨tw, dw⟩ := takeWhile_append_all (natToChars_digits n) hrest
  obtain ⟨c, cs, he, _, hz⟩ := natToChars_shape n
  unfold parseNat
  rw [tw, dw, he]
  dsimp only
  by_cases hc0 : c = '0'
  · rw [if_neg (by simp [hz hc0])]
    rw [← he, natToChars_val]
  · rw [if_neg (by simp [hc0])]
    rw [← he, natToChars_val]

theorem expectC_print {ch : Char} (h : isWsC ch = false) (rest : List Char) :
    expectC ch (ch :: rest) = some rest := by
  unfold expectC
  rw [skipWs_cons h]
  simp

theorem skipWs_natToChars (n : Nat) (rest : List Char) :
    skipWs (natToChars n ++ rest) = natToChars n ++ rest := by
  obtain ⟨c, cs, he, hd, _⟩ := natToChars_shape n
  rw [he, List.cons_append]
  exact skipWs_cons (digit_not_ws hd) _

theorem not_digit_head {c : Char} (h : c.isDigit = false) (t : List Char) :
    ∀ c', (c :: t).head? = some c' → c'.isDigit = false := by
  intro c' hc'
  simp only [List.head?_cons, Option.some.injEq] at hc'
  rw [← hc']
  exact h

theorem parsePair_print (v : Node) (rest : List Char)
    (hq : v.q < 2 ^ 64) (hi : v.i < 2 ^ 8) :
    parsePair (pairChars v ++ rest) = some ((v.q, v.i), rest) := by
  unfold parsePair pairChars
  simp only [List.cons_append, List.append_assoc, List.nil_append]
  rw [expectC_print (by decide)]
  simp only [Option.bind_eq_bind, Option.some_bind]
  rw [skipWs_natToChars, parseNat_print (not_digit_head (by decide) _)]
  simp only [Option.bind_eq_bind, Option.some_bind]
  rw [if_neg (by omega)]
  rw [expectC_print (by decide)]
  simp only [Option.bind_eq_bind, Option.some_bind]
  rw [skipWs_natToChars, parseNat_print (not_digit_head (by decide) _)]
  simp only [Option.bind_eq_bind, Option.some_bind]
  rw [if_neg (by omega)]
  rw [expectC_print (by decide)]
  simp only [Option.bind_eq_bind, Option.some_bind, Option.pure_def]

theorem parseLine_print (v0 v1 v2 v3 : Node)
    (h0q : v0.q < 2 ^ 64) (h0i : v0.i < 2 ^ 8)
    (h1q : v1.q < 2 ^ 64) (h1i : v1.i < 2 ^ 8)
    (h2q : v2.q < 2 ^ 64) (h2i : v2.i < 2 ^ 8)
    (h3q : v3.q < 2 ^ 64) (h3i : v3.i < 2 ^ 8) :
    parseLine ('[' :: (pairChars v0 ++ ',' :: (pairChars v1 ++ ',' ::
        (pairChars v2 ++ ',' :: (pairChars v3 ++ [']']))))) =
      some ((v0.q, v0.i), (v1.q, v1.i), (v2.q, v2.i), (v3.q, v3.i)) := by
  unfold parseLine
  rw [expectC_print (by decide)]
  simp only [Option.bind_eq_bind, Option.some_bind]
  rw [parsePair_print v0 _ h0q h0i]
  simp only [Option.bind_eq_bind, Option.some_bind]
  rw [expectC_print (by decide)]
  simp only [Option.bind_eq_bind, Option.some_bind]
  rw [parsePair_print v1 _ h1q h1i]
  simp only [Option.bind_eq_bind, Option.some_bind]
  rw [expectC_print (by decide)]
  simp only [Option.bind_eq_bind, Option.some_bind]
  rw [parsePair_print v2 _ h2q h2i]
  simp only [Option.bind_eq_bind, Option.some_bind]
  rw [expectC_print (by decide)]
  simp only [Option.bind_eq_bind, Option.some_bind]
  rw [parsePair_print v3 _ h3q h3i]
  simp only [Option.bind_eq_bind, Option.some_bind]
  rw [expectC_print (by decide)]
  simp only [Option.bind_eq_bind, Option.some_bind]
  simp [skipWs]

/-! ## Round-trip: export then import -/

/-- Result of resolving one slot back to `(ordinal, index)`. -/
def pairOf : Option Node → Nat × Nat
  | none => (0, 0)
  | some v => (v.q, v.i)

/-- The `(ordinal, index)` quadruple a record serializes to. -/
def tupleOf (r : QuadRecord) : Vec4 :=
  (pairOf r.n0, pairOf r.n1, pairOf r.n2, pairOf r.n3)

/-- All four next-pointers of `r` are initialized, point into the manifold,
and store `u8` indices. -/
def RecordReady (len : Nat) (r : QuadRecord) : Prop :=
  (∃ v : Node, r.n0 = some v ∧ v.q < len ∧ v.i < 2 ^ 8) ∧
  (∃ v : Node, r.n1 = some v ∧ v.q < len ∧ v.i < 2 ^ 8) ∧
  (∃ v : Node, r.n2 = some v ∧ v.q < len ∧ v.i < 2 ^ 8) ∧
  (∃ v : Node, r.n3 = some v ∧ v.q < len ∧ v.i < 2 ^ 8)

theorem slotChars_some (len : Nat) {v : Node} (h : v.q < len) :
    slotChars len (some v) = some (pairChars v) := by
  unfold slotChars
  dsimp only
  rw [if_pos h]

theorem recordChars_ready {len : Nat} {r : QuadRecord} (h : RecordReady len r) :
    recordChars len r = some (bodyChars r ++ ['\n']) := by
  obtain ⟨⟨v0, e0, q0, i0⟩, ⟨v1, e1, q1, i1⟩, ⟨v2, e2, q2, i2⟩, ⟨v3, e3, q3, i3⟩⟩ := h
  unfold recordChars bodyChars
  rw [e0, e1, e2, e3, slotChars_some _ q0, slotChars_some _ q1,
    slotChars_some _ q2, slotChars_some _ q3]
  dsimp only [pcChars]
  simp [List.append_assoc]

theorem parseLine_bodyChars {len : Nat} {r : QuadRecord} (h : RecordReady len r)
    (hlen : len ≤ 2 ^ 64) : parseLine (bodyChars r) = some (tupleOf r) := by
  obtain ⟨⟨v0, e0, q0, i0⟩, ⟨v1, e1, q1, i1⟩, ⟨v2, e2, q2, i2⟩, ⟨v3, e3, q3, i3⟩⟩ := h
  unfold bodyChars tupleOf
  rw [e0, e1, e2, e3]
  dsimp only [pcChars, pairOf]
  exact parseLine_print v0 v1 v2 v3 (by omega) i0 (by omega) i1 (by omega) i2
    (by omega) i3

theorem mem_pairChars {c : Char} {v : Node} (h : c ∈ pairChars v) :
    c.isDigit = true ∨ c = '[' ∨ c = ']' ∨ c = ',' := by
  unfold pairChars at h
  simp only [List.mem_cons, List.mem_append] at h
  rcases h with rfl | h
  · right; left; rfl
  rcases h with h | h
  · exact Or.inl (natToChars_digits _ c h)
  rcases h with rfl | h
  · right; right; right; rfl
  rcases h with h | h
  · exact Or.inl (natToChars_digits _ c h)
  · simp at h
    subst h
    right; right; left; rfl

theorem bodyChars_mem {len : Nat} {r : QuadRecord} (hr : RecordReady len r) :
    ∀ c ∈ bodyChars r, c ≠ '\n' ∧ c ≠ '\r' := by
  obtain ⟨⟨v0, e0, _, _⟩, ⟨v1, e1, _, _⟩, ⟨v2, e2, _, _⟩, ⟨v3, e3, _, _⟩⟩ := hr
  intro c hc
  unfold bodyChars at hc
  rw [e0, e1, e2, e3] at hc
  dsimp only [pcChars] at hc
  have hout : c.isDigit = true ∨ c = '[' ∨ c = ']' ∨ c = ',' := by
    simp only [List.mem_cons, List.mem_append] at hc
    rcases hc with rfl | hc
    · right; left; rfl
    rcases hc with hc | hc
    · exact mem_pairChars hc
    rcases hc with rfl | hc
    · right; right; right; rfl
    rcases hc with hc | hc
    · exact mem_pairChars hc
    rcases hc with rfl | hc
    · right; right; right; rfl
    rcases hc with hc | hc
    · exact mem_pairChars hc
    rcases hc with rfl | hc
    · right; right; right; rfl
    rcases hc with hc | hc
    · exact mem_pairChars hc
    · simp at hc
      subst hc
      right; right; left; rfl
  rcases hout with hd | rfl | rfl | rfl
  · constructor
    · intro he; subst he; exact absurd hd (by decide)
    · intro he; subst he; exact absurd hd (by decide)
  · exact ⟨by decide, by decide⟩
  · exact ⟨by decide, by decide⟩
  · exact ⟨by decide, by decide⟩

theorem stripCR_no_cr {l : List Char} (h : '\r' ∉ l) : stripCR l = l := by
  unfold stripCR
  rw [if_neg]
  intro he
  exact h (List.mem_of_getLast?_eq_some he)

theorem linesGo_cons (acc : List Char) (c : Char) (rest : List Char) :
    linesGo acc (c :: rest) =
      if c = '\n' then stripCR acc.reverse :: linesGo [] rest
      else linesGo (c :: acc) rest := rfl

theorem linesGo_append {body rest : List Char} (hb : ∀ c ∈ body, c ≠ '\n') :
    ∀ acc, linesGo acc (body ++ '\n' :: rest) =
      stripCR (acc.reverse ++ body) :: linesGo [] rest := by
  induction body with
  | nil =>
    intro acc
    rw [List.nil_append, linesGo_cons, if_pos rfl, List.append_nil]
  | cons c t ih =>
    intro acc
    have hc : ¬ c = '\n' := hb c (List.mem_cons_self c t)
    rw [List.cons_append, linesGo_cons, if_neg hc,
      ih (fun c' hc' => hb c' (List.mem_cons_of_mem c hc')) (c :: acc)]
    simp [List.append_assoc]

theorem linesOf_flatten {recs : List (List Char)}
    (h : ∀ b ∈ recs, ∀ c ∈ b, c ≠ '\n' ∧ c ≠ '\r') :
    linesOf ((recs.map (fun b => b ++ ['\n'])).flatten) = recs := by
  induction recs with
  | nil => rfl
  | cons b t ih =>
    simp only [List.map_cons, List.flatten_cons, List.append_assoc,
      List.singleton_append]
    unfold linesOf
    rw [linesGo_append (fun c hc => (h b (List.mem_cons_self b t) c hc).1) []]
    rw [List.reverse_nil, List.nil_append,
      stripCR_no_cr (fun hcr => (h b (List.mem_cons_self b t) '\r' hcr).2 rfl)]
    exact congrArg _ (ih (fun b' hb' => h b' (List.mem_cons_of_mem b hb')))

theorem mapM_recordChars {len : Nat} {recs : List QuadRecord}
    (h : ∀ r ∈ recs, RecordReady len r) :
    recs.mapM (recordChars len) = some (recs.map (fun r => bodyChars r ++ ['\n'])) := by
  induction recs with
  | nil => rfl
  | cons r t ih =>
    rw [List.mapM_cons, recordChars_ready (h r (List.mem_cons_self r t)),
      ih (fun r' hr' => h r' (List.mem_cons_of_mem r hr'))]
    rfl

theorem mapM_parseLine_bodies {len : Nat} {recs : List QuadRecord}
    (h : ∀ r ∈ recs, RecordReady len r) (hlen : len ≤ 2 ^ 64) :
    (recs.map bodyChars).mapM parseLine = some (recs.map tupleOf) := by
  induction recs with
  | nil => rfl
  | cons r t ih =>
    rw [List.map_cons, List.mapM_cons,
      parseLine_bodyChars (h r (List.mem_cons_self r t)) hlen,
      ih (fun r' hr' => h r' (List.mem_cons_of_mem r hr'))]
    rfl

/-- The node written into slot `i` of a record by pass 2 of `import`. -/
def nodeFromVal (base : Nat) (v : Vec4) (i : Nat) : Node :=
  match i % 4 with
  | 0 => ⟨base + v.1.1, v.1.2⟩
  | 1 => ⟨base + v.2.1.1, v.2.1.2⟩
  | 2 => ⟨base + v.2.2.1.1, v.2.2.1.2⟩
  | _ => ⟨base + v.2.2.2.1, v.2.2.2.2⟩

theorem applyVals_cons (s : Mstate) (base q : Nat) (v : Vec4) (rest : List Vec4) :
    applyVals s base q (v :: rest) =
      applyVals (setAll s q ⟨base + v.1.1, v.1.2⟩ ⟨base + v.2.1.1, v.2.1.2⟩
        ⟨base + v.2.2.1.1, v.2.2.1.2⟩ ⟨base + v.2.2.2.1, v.2.2.2.2⟩) base (q + 1) rest := rfl

theorem length_applyVals (vals : List Vec4) (s : Mstate) (base q : Nat) :
    (applyVals s base q vals).length = s.length := by
  induction vals generalizing s q with
  | nil => rfl
  | cons v rest ih => rw [applyVals_cons, ih, length_setAll]

theorem length_foldl_make {α : Type} (vals : List α) (s0 : Mstate) :
    (vals.foldl (fun s _ => make_quad s) s0).length = s0.length + vals.length := by
  induction vals generalizing s0 with
  | nil => simp
  | cons v rest ih =>
    rw [List.foldl_cons, ih, length_make_quad]
    simp
    omega

theorem readN_applyVals_out {vals : List Vec4} {s : Mstate} {base q : Nat}
    {n : Node} (h : n.q < q ∨ q + vals.length ≤ n.q) :
    readN (applyVals s base q vals) n = readN s n := by
  induction vals generalizing s q with
  | nil => rfl
  | cons v rest ih =>
    rw [applyVals_cons, ih (by simp at h ⊢; omega)]
    unfold setAll
    simp only [readN_writeN, length_writeN]
    have hne : n.q ≠ q := by simp at h; omega
    rw [if_neg fun hc => hne hc.1.1.symm, if_neg fun hc => hne hc.1.1.symm,
      if_neg fun hc => hne hc.1.1.symm, if_neg fun hc => hne hc.1.1.symm]

theorem readN_applyVals_in {vals : List Vec4} {s : Mstate} {base q j : Nat}
    {v : Vec4} (hj : vals[j]? = some v) (hfit : q + vals.length ≤ s.length)
    {n : Node} (hn : n.q = q + j) :
    readN (applyVals s base q vals) n = some (nodeFromVal base v n.i) := by
  induction vals generalizing s q j with
  | nil => simp at hj
  | cons w rest ih =>
    cases j with
    | zero =>
      simp only [List.getElem?_cons_zero, Option.some.injEq] at hj
      subst hj
      rw [applyVals_cons, readN_applyVals_out (by simp at hn ⊢; omega)]
      rw [readN_setAll _ _ _ _ _ _ (by simp at hfit; omega) n]
      rw [if_pos (by omega : n.q = q)]
      unfold nodeFromVal
      have h4 : n.i % 4 = 0 ∨ n.i % 4 = 1 ∨ n.i % 4 = 2 ∨ n.i % 4 = 3 := by omega
      rcases h4 with h | h | h | h <;> rw [h]
    | succ j' =>
      simp only [List.getElem?_cons_succ] at hj
      rw [applyVals_cons]
      exact ih hj (by rw [length_setAll]; simp at hfit; omega) (by omega)

/--
**C7.** Export/import round-trip: for any manifold whose next-pointer slots
are all initialized (with in-range records and `u8` indices, as the arena
guarantees), exporting and importing into a fresh manifold reproduces the
next-pointer relation exactly, record for record and slot for slot.
-/
theorem export_import_roundtrip (s : Mstate)
    (hInit : AllInit s) (hRange : InRange s)
    (hBytes : ∀ n m : Node, readN s n = some m → m.i < 2 ^ 8)
    (hLen : s.length ≤ 2 ^ 64) :
    ∃ out s', exportChars s = some out ∧ importOut [] out = .ok s' ∧
      s'.length = s.length ∧ ∀ n : Node, readN s' n = readN s n := by
  -- Every record of `s` is fully resolvable.
  have hready : ∀ r ∈ s, RecordReady s.length r := by
    intro r hr
    obtain ⟨p, hp⟩ := List.mem_iff_getElem?.1 hr
    have hslot : ∀ k : Nat, readN s ⟨p, k⟩ = r.nextSlot k := by
      intro k
      unfold readN
      rw [hp]
      rfl
    have hplt : p < s.length := (List.getElem?_eq_some_iff.1 hp).1
    have build : ∀ k : Nat, ∃ v : Node, r.nextSlot k = some v ∧ v.q < s.length ∧
        v.i < 2 ^ 8 := by
      intro k
      obtain ⟨v, hv⟩ := readN_isSome hInit (n := ⟨p, k⟩) hplt
      rw [hslot k] at hv
      exact ⟨v, hv, hRange ⟨p, k⟩ v (by rw [hslot k]; exact hv),
        hBytes ⟨p, k⟩ v (by rw [hslot k]; exact hv)⟩
    refine ⟨?_, ?_, ?_, ?_⟩
    · simpa [QuadRecord.nextSlot] using build 0
    · simpa [QuadRecord.nextSlot] using build 1
    · simpa [QuadRecord.nextSlot] using build 2
    · simpa [QuadRecord.nextSlot] using build 3
  -- Export succeeds and emits one line per record.
  have hexp : exportChars s =
      some ((s.map (fun r => bodyChars r ++ ['\n'])).flatten) := by
    unfold exportChars
    rw [mapM_recordChars hready]
    rfl
  -- The emitted text splits back into the record lines.
  have hlines : linesOf ((s.map (fun r => bodyChars r ++ ['\n'])).flatten)
      = s.map bodyChars := by
    have hshape : s.map (fun r => bodyChars r ++ ['\n'])
        = (s.map bodyChars).map (fun b => b ++ ['\n']) := by
      rw [List.map_map]
      rfl
    rw [hshape]
    apply linesOf_flatten
    intro b hb
    rw [List.mem_map] at hb
    obtain ⟨r, hr, rfl⟩ := hb
    exact bodyChars_mem (hready r hr)
  -- Each line parses back to the record's quadruple.
  have hvals : (s.map bodyChars).mapM parseLine = some (s.map tupleOf) :=
    mapM_parseLine_bodies hready hLen
  -- All parsed ordinals are in range.
  have hall : (s.map tupleOf).all (vec4InRange (s.map tupleOf).length) = true := by
    rw [List.all_eq_true]
    intro v hv
    rw [List.mem_map] at hv
    obtain ⟨r, hr, rfl⟩ := hv
    obtain ⟨⟨v0, e0, q0, _⟩, ⟨v1, e1, q1, _⟩, ⟨v2, e2, q2, _⟩, ⟨v3, e3, q3, _⟩⟩ :=
      hready r hr
    simp [vec4InRange, tupleOf, pairOf, e0, e1, e2, e3, List.length_map, q0, q1, q2, q3]
  have himp : importOut [] ((s.map (fun r => bodyChars r ++ ['\n'])).flatten)
      = .ok (applyVals ((s.map tupleOf).foldl (fun s _ => make_quad s) [])
          (List.length ([] : Mstate)) (List.length ([] : Mstate)) (s.map tupleOf)) := by
    unfold importOut
    rw [hlines, hvals]
    dsimp only
    rw [if_pos hall]
  refine ⟨_, _, hexp, himp, ?_, ?_⟩
  · simp only [List.length_nil]
    rw [length_applyVals, length_foldl_make]
    simp
  · intro n
    simp only [List.length_nil]
    by_cases hn : n.q < s.length
    · obtain ⟨r, hr⟩ : ∃ r, s[n.q]? = some r :=
        ⟨s[n.q], List.getElem?_eq_getElem hn⟩
      have hv : (s.map tupleOf)[n.q]? = some (tupleOf r) := by
        rw [List.getElem?_map, hr]
        rfl
      rw [readN_applyVals_in hv
        (by rw [length_foldl_make]; simp) (by simp : n.q = 0 + n.q)]
      obtain ⟨⟨v0, e0, _, _⟩, ⟨v1, e1, _, _⟩, ⟨v2, e2, _, _⟩, ⟨v3, e3, _, _⟩⟩ :=
        hready r (List.getElem?_mem hr)
      unfold readN
      rw [hr]
      unfold nodeFromVal tupleOf QuadRecord.nextSlot
      have h4 : n.i % 4 = 0 ∨ n.i % 4 = 1 ∨ n.i % 4 = 2 ∨ n.i % 4 = 3 := by omega
      rcases h4 with h | h | h | h <;>
        · rw [h]
          simp [pairOf, e0, e1, e2, e3]
    · rw [readN_applyVals_out (by simp; omega : n.q < 0 ∨ 0 + (s.map tupleOf).length ≤ n.q)]
      rw [readN_oob (by rw [length_foldl_make]; simp; omega),
        readN_oob (by omega)]

theorem export_import_roundtrip_witness :
    ∃ out s', exportChars (make_quad []) = some out ∧
      importOut [] out = .ok s' ∧ s'.length = (make_quad []).length ∧
      ∀ n : Node, readN s' n = readN (make_quad []) n := by
  obtain ⟨h1, h2, _, h4⟩ := invariants_of_checked (s := make_quad []) (by decide)
  exact export_import_roundtrip (make_quad []) h1 h2 h4 (by decide)

end QuadedgeRs
